import Mathlib

/-!
# voice-recording: turn-taking coordinator and PCM frame codec

A shallow embedding of `conversation.go` (the `ConversationManager` debounce
state machine) and of the two codec functions of `audio.go`
(`int16SliceToBytes`, `bytesToInt16Slice`), followed by the properties proved
about them.

Modelling conventions.

* A Go `string` holding valid UTF-8 (transcripts come out of `json.Unmarshal`,
  which only produces valid UTF-8) is the list of its code points.
* A buffered channel is its queued items, its capacity and its closed flag.
* The mutex of the `ConversationManager` serialises the three methods, so each
  method is one atomic step on the manager's fields.
* `time.Duration` is a natural number of nanoseconds; a `*time.Timer` is
  `Option Timer` (`none` is the nil pointer).
* `byte` is a natural number read modulo 256, `uint16` a natural number below
  65536, `int16` an integer in `[-32768, 32767]`.
-/

namespace Voice

/-! ## Go strings and `strings.TrimSpace` -/

/-- Go `string` restricted to valid UTF-8: the list of its code points. -/
abbrev GoString := List Char

/-- Byte length of a string (`len(s)`, `strings.Builder.Len`): the sum of the
UTF-8 widths of its code points. -/
def Len : GoString → Nat
  | [] => 0
  | c :: cs => c.utf8Size + Len cs

/-- Go standard library `unicode.IsSpace`: in Latin-1 the characters
tab, line feed, vertical tab, form feed, carriage return, space, U+0085 and
U+00A0; above Latin-1 the code points with the `White_Space` property. -/
def isSpace (r : Char) : Bool :=
  let n := r.toNat
  if n ≤ 0xFF then
    decide (n = 0x09 ∨ n = 0x0A ∨ n = 0x0B ∨ n = 0x0C ∨ n = 0x0D ∨ n = 0x20 ∨
      n = 0x85 ∨ n = 0xA0)
  else
    decide (n = 0x1680 ∨ (0x2000 ≤ n ∧ n ≤ 0x200A) ∨ n = 0x2028 ∨ n = 0x2029 ∨
      n = 0x202F ∨ n = 0x205F ∨ n = 0x3000)

/-- Go standard library `strings.TrimSpace` on a valid UTF-8 string: the
leading and the trailing white space (as `unicode.IsSpace`) removed. -/
def TrimSpace (s : GoString) : GoString :=
  ((s.dropWhile isSpace).reverse.dropWhile isSpace).reverse

/-! ## Channels -/

/-- Buffered Go channel: queued items (oldest first), capacity, closed flag. -/
structure Chan (α : Type) where
  buf : List α
  cap : Nat
  closed : Bool
deriving DecidableEq, Repr

/-- The statement `select { case c <- v: default: }`: `none` is the run-time
panic of a send on a closed channel; otherwise the item is queued when the
buffer has room and the `default` branch leaves the channel as it is. -/
def Chan.trySend {α : Type} (c : Chan α) (v : α) : Option (Chan α) :=
  if c.closed then none
  else if c.buf.length < c.cap then some { c with buf := c.buf ++ [v] }
  else some c

/-! ## conversation.go -/

/-- Go `type Transcript struct { Text string; Final bool }`. -/
structure Transcript where
  Text : GoString
  Final : Bool
deriving DecidableEq, Repr

/-- Go `type ConversationState int` with its three constants. -/
inductive ConversationState where
  | StateIdle
  | StateUserSpeaking
  | StateAssistantSpeaking
deriving DecidableEq, Repr

open ConversationState

/-- The timer object returned by `time.AfterFunc(d, f)`; the callback is always
`flushIfNeeded`, so only the delay is recorded. -/
structure Timer where
  d : Nat
deriving DecidableEq, Repr

/-- Go `time.AfterFunc(d, cm.flushIfNeeded)`. -/
def AfterFunc (d : Nat) : Timer := ⟨d⟩

/-- Go `type ConversationManager struct` without its mutex: `pendingText` is
the content of the `strings.Builder`, `output` the state of the channel. -/
structure ConversationManager where
  state : ConversationState
  gracePeriod : Nat
  pendingText : GoString
  commitTimer : Option Timer
  output : Chan GoString
  timerActive : Bool
deriving DecidableEq, Repr

/-- Go `NewConversationManager`: the fields not named in the literal take their
zero values. -/
def NewConversationManager (gracePeriod : Nat) (out : Chan GoString) :
    ConversationManager :=
  { state := StateIdle, gracePeriod := gracePeriod, pendingText := [],
    commitTimer := none, output := out, timerActive := false }

/-- Go `(*ConversationManager).handleTranscript`. Stopping the previous timer
acts on the timer object that the next line replaces, so it leaves no trace in
the fields. -/
def handleTranscript (cm : ConversationManager) (tr : Transcript) :
    ConversationManager :=
  if cm.state = StateAssistantSpeaking then cm
  else if tr.Final = false then cm
  else if tr.Text = [] then cm
  else
    let pending :=
      if Len cm.pendingText > 0 then cm.pendingText ++ [' '] else cm.pendingText
    { cm with
      pendingText := pending ++ TrimSpace tr.Text
      state := StateUserSpeaking
      commitTimer := some (AfterFunc cm.gracePeriod)
      timerActive := true }

/-- Go `(*ConversationManager).flushIfNeeded`, the callback of the debounce
timer; `none` is the panic of the send when the output channel is closed. -/
def flushIfNeeded (cm : ConversationManager) : Option ConversationManager :=
  let text := TrimSpace cm.pendingText
  if text = [] then
    some { cm with state := StateIdle, timerActive := false }
  else
    match cm.output.trySend text with
    | none => none
    | some o =>
      some { cm with
        pendingText := [], state := StateIdle, timerActive := false, output := o }

/-- Go `(*ConversationManager).SetAssistantSpeaking`. -/
def SetAssistantSpeaking (cm : ConversationManager) (on' : Bool) :
    ConversationManager :=
  if on' then { cm with state := StateAssistantSpeaking }
  else { cm with state := StateIdle }

/-- Go `(*ConversationManager).Run` when `ctx.Done()` never becomes ready. The
list is what the input channel delivers, oldest first, and `inClosed` tells
whether the channel is closed behind these items. Each iteration of the
`select` receives the oldest item and hands it to `handleTranscript`; the
receive on the drained channel reports `ok = false` when the channel is closed
(the loop returns) and blocks forever otherwise (`none`). -/
def Run (cm : ConversationManager) (inClosed : Bool) :
    List Transcript → Option ConversationManager
  | [] => if inClosed then some cm else none
  | tr :: rest => Run (handleTranscript cm tr) inClosed rest

/-! ## audio.go: the frame codec -/

/-- Go conversion `uint16(s)` of an `int16`: the value modulo 2^16. -/
def toUint16 (s : Int) : Nat := (s % 65536).toNat

/-- Go conversion `int16(v)` of a `uint16`: the two's-complement reading. -/
def toInt16 (v : Nat) : Int :=
  if v % 65536 < 32768 then ((v % 65536 : Nat) : Int) else ((v % 65536 : Nat) : Int) - 65536

/-- Go `binary.LittleEndian.PutUint16(b[off:], v)`: `none` is the panic of the
slice expression or of the bounds check `_ = b[1]`; otherwise `byte(v)` is
stored at `off` and `byte(v >> 8)` at `off + 1`. -/
def PutUint16 (b : List Nat) (off : Nat) (v : Nat) : Option (List Nat) :=
  if off + 1 < b.length then
    some ((b.set off (v % 256)).set (off + 1) ((v >>> 8) % 256))
  else none

/-- Go `binary.LittleEndian.Uint16(b[off:])`: `none` is the panic of the slice
expression or of the bounds check; otherwise
`uint16(b[0]) | uint16(b[1])<<8`. -/
def Uint16 (b : List Nat) (off : Nat) : Option Nat :=
  if off + 1 < b.length then
    some ((b.getD off 0 % 256) ||| ((b.getD (off + 1) 0 % 256) <<< 8))
  else none

/-- Go `int16SliceToBytes`: the buffer of `len(samples)*2` zero bytes, then the
loop over the samples with their indices; `none` is a panic. -/
def int16SliceToBytes (samples : List Int) : Option (List Nat) :=
  samples.enum.foldlM (fun b (p : Nat × Int) => PutUint16 b (2 * p.1) (toUint16 p.2))
    (List.replicate (samples.length * 2) 0)

/-- Go `bytesToInt16Slice`: the dangling byte of an odd-length buffer is cut
off, then the loop `for i := 0; i < n; i++` fills `out`; `none` is a panic. -/
def bytesToInt16Slice (data : List Nat) : Option (List Int) :=
  let data := if data.length % 2 ≠ 0 then data.take (data.length - 1) else data
  let n := data.length / 2
  (List.range n).foldlM
    (fun out i => (Uint16 data (2 * i)).map (fun v => out.set i (toInt16 v)))
    (List.replicate n 0)

/-- The two bytes of a sample, low byte first. -/
def sampleBytes (s : Int) : List Nat := [toUint16 s % 256, toUint16 s / 256]

/-- The sample read from the bytes at `2 * i` and `2 * i + 1`. -/
def sampleAt (data : List Nat) (i : Nat) : Int :=
  toInt16 (data.getD (2 * i) 0 % 256 + data.getD (2 * i + 1) 0 % 256 * 256)

/-! ## Traces of the coordinator -/

/-- The three ways the fields of a `ConversationManager` are touched: a
transcript handed to `handleTranscript`, a call of `SetAssistantSpeaking`, and
the debounce timer running `flushIfNeeded`. -/
inductive Event where
  | transcript (tr : Transcript)
  | assistantSpeaking (b : Bool)
  | timerFires
deriving DecidableEq, Repr

/-- One event applied to the manager. -/
def step (cm : ConversationManager) : Event → Option ConversationManager
  | Event.transcript tr => some (handleTranscript cm tr)
  | Event.assistantSpeaking b => some (SetAssistantSpeaking cm b)
  | Event.timerFires => flushIfNeeded cm

/-- A finite interleaving of events applied in order; `none` when a flush
panics on the way. -/
def exec (cm : ConversationManager) : List Event → Option ConversationManager
  | [] => some cm
  | e :: es => (step cm e).bind (fun cm1 => exec cm1 es)

/-- The trimmed texts of the final events of a sequence, in arrival order. -/
def finalTexts (evs : List Transcript) : List GoString :=
  (evs.filter (fun e => e.Final)).map (fun e => TrimSpace e.Text)

/-- Single-space join of a list of texts. -/
def spaceJoin (ts : List GoString) : GoString :=
  List.intercalate [' '] ts

/-- A text holds at least one character that is not white space. -/
def NonBlank (s : GoString) : Prop := ∃ c ∈ s, isSpace c = false

instance (s : GoString) : Decidable (NonBlank s) := by
  unfold NonBlank; infer_instance

/-- A text neither starts nor ends with white space. -/
def Trimmed (s : GoString) : Prop :=
  (∀ c, s.head? = some c → isSpace c = false) ∧
  (∀ c, s.getLast? = some c → isSpace c = false)

/-- The manager that a fresh one becomes once transcripts have buffered `text`
and armed the timer. -/
def buffering (gp : Nat) (out : Chan GoString) (text : GoString) : ConversationManager :=
  { state := StateUserSpeaking, gracePeriod := gp, pendingText := text,
    commitTimer := some (AfterFunc gp), output := out, timerActive := true }

/-- The first character of a text, when there is one, is not white space. -/
def HeadOk (s : GoString) : Prop := ∀ c, s.head? = some c → isSpace c = false

/-- The invariant of every reachable manager: the buffer does not start with
white space, and it holds text only while the timer is marked active. -/
def Inv (cm : ConversationManager) : Prop :=
  HeadOk cm.pendingText ∧ (cm.pendingText ≠ [] → cm.timerActive = true)

/-! ## Lemmas on strings -/

theorem Len_pos_iff (s : GoString) : 0 < Len s ↔ s ≠ [] := by
  cases s with
  | nil => simp [Len]
  | cons c cs =>
    have := Char.utf8Size_pos c
    simp [Len]; omega

theorem TrimSpace_eq_rdropWhile (s : GoString) :
    TrimSpace s = List.rdropWhile isSpace (s.dropWhile isSpace) := rfl

theorem TrimSpace_nil : TrimSpace [] = [] := rfl

theorem TrimSpace_of_trimmed (s : GoString) (h : Trimmed s) : TrimSpace s = s := by
  obtain ⟨h1, h2⟩ := h
  rcases List.eq_nil_or_concat s with rfl | ⟨l, a, rfl⟩
  · rfl
  · rw [List.concat_eq_append] at h1 h2 ⊢
    have ha : isSpace a = false := h2 a (by simp)
    have hd : List.dropWhile isSpace (l ++ [a]) = l ++ [a] := by
      cases l with
      | nil => simp [List.dropWhile, ha]
      | cons b l =>
        have hb : isSpace b = false := h1 b (by simp)
        simp [List.dropWhile, hb]
    rw [TrimSpace_eq_rdropWhile, hd]
    simp [List.rdropWhile_concat, ha]

theorem TrimSpace_ne_nil_iff (s : GoString) : TrimSpace s ≠ [] ↔ NonBlank s := by
  rw [TrimSpace_eq_rdropWhile]
  constructor
  · intro h
    have hd : List.dropWhile isSpace s ≠ [] := by
      intro h0; rw [h0] at h; exact h rfl
    rw [Ne, List.dropWhile_eq_nil_iff] at hd
    push_neg at hd
    obtain ⟨c, hc, hs⟩ := hd
    exact ⟨c, hc, by simpa using hs⟩
  · rintro ⟨c, hc, hs⟩
    have hd : List.dropWhile isSpace s ≠ [] := by
      rw [Ne, List.dropWhile_eq_nil_iff]
      push_neg
      exact ⟨c, hc, by simp [hs]⟩
    rw [Ne, List.rdropWhile_eq_nil_iff]
    push_neg
    have hh := List.head?_dropWhile_not isSpace s
    cases hds : List.dropWhile isSpace s with
    | nil => exact absurd hds hd
    | cons a l =>
      rw [hds] at hh
      simp only [List.head?_cons] at hh
      exact ⟨a, by simp, by simp [hh]⟩

theorem TrimSpace_eq_nil_iff (s : GoString) :
    TrimSpace s = [] ↔ ∀ c ∈ s, isSpace c = true := by
  have h := TrimSpace_ne_nil_iff s
  constructor
  · intro h0 c hc
    by_contra hs
    exact (h.mpr ⟨c, hc, by simpa using hs⟩) h0
  · intro hall
    by_contra h0
    obtain ⟨c, hc, hs⟩ := h.mp h0
    rw [hall c hc] at hs
    exact Bool.noConfusion hs

theorem TrimSpace_trimmed (s : GoString) : Trimmed (TrimSpace s) := by
  rw [TrimSpace_eq_rdropWhile]
  constructor
  · intro c hc
    have hpre := List.rdropWhile_prefix isSpace (List.dropWhile isSpace s)
    obtain ⟨t, ht⟩ := hpre
    have hh := List.head?_dropWhile_not isSpace s
    cases hr : List.rdropWhile isSpace (List.dropWhile isSpace s) with
    | nil => rw [hr] at hc; simp at hc
    | cons a l =>
      rw [hr] at hc ht
      simp only [List.head?_cons, Option.some.injEq] at hc
      rw [← ht] at hh
      simp only [List.cons_append, List.head?_cons] at hh
      rw [← hc]; exact hh
  · intro c hc
    by_cases hl : List.rdropWhile isSpace (List.dropWhile isSpace s) = []
    · rw [hl] at hc; simp at hc
    · have h := List.rdropWhile_last_not isSpace (List.dropWhile isSpace s) hl
      rw [List.getLast?_eq_getLast _ hl] at hc
      simp only [Option.some.injEq] at hc
      rw [hc] at h
      simpa using h

theorem TrimSpace_append_space (p : GoString) (c : Char) (hc : isSpace c = true) :
    TrimSpace (p ++ [c]) = TrimSpace p := by
  rw [TrimSpace_eq_rdropWhile, TrimSpace_eq_rdropWhile, List.dropWhile_append]
  by_cases hd : List.dropWhile isSpace p = []
  · simp [hd, List.dropWhile, hc, List.rdropWhile]
  · have : (List.dropWhile isSpace p).isEmpty = false := by
      cases h : List.dropWhile isSpace p with
      | nil => exact absurd h hd
      | cons a l => rfl
    rw [this]
    simp [List.rdropWhile_concat, hc]

theorem Trimmed_nil : Trimmed [] := by
  constructor <;> intro c hc <;> simp at hc

theorem Trimmed_append_space (a b : GoString) (ha : Trimmed a) (hb : Trimmed b)
    (ha0 : a ≠ []) (hb0 : b ≠ []) : Trimmed (a ++ [' '] ++ b) := by
  constructor
  · intro c hc
    rw [List.append_assoc, List.head?_append_of_ne_nil _ ha0] at hc
    exact ha.1 c hc
  · intro c hc
    rw [List.getLast?_append] at hc
    cases hb' : b.getLast? with
    | none => simp [List.getLast?_eq_none_iff] at hb'; exact absurd hb' hb0
    | some d =>
      rw [hb'] at hc
      simp only [Option.or_some, Option.some.injEq] at hc
      rw [← hc]; exact hb.2 d hb'

/-! ## Lemmas on the space join -/

theorem spaceJoin_nil : spaceJoin [] = [] := rfl

theorem spaceJoin_singleton (t : GoString) : spaceJoin [t] = t := by
  simp [spaceJoin, List.intercalate, List.intersperse]

theorem spaceJoin_cons_cons (a b : GoString) (l : List GoString) :
    spaceJoin (a :: b :: l) = a ++ [' '] ++ spaceJoin (b :: l) := by
  simp [spaceJoin, List.intercalate, List.intersperse]

theorem spaceJoin_concat (l : List GoString) (t : GoString) (hl : l ≠ []) :
    spaceJoin (l ++ [t]) = spaceJoin l ++ [' '] ++ t := by
  induction l with
  | nil => exact absurd rfl hl
  | cons a l ih =>
    cases l with
    | nil => simp [spaceJoin_cons_cons, spaceJoin_singleton]
    | cons b l =>
      have := ih (by simp)
      rw [List.cons_append, List.cons_append, spaceJoin_cons_cons, ← List.cons_append,
        this, spaceJoin_cons_cons]
      simp [List.append_assoc]

theorem spaceJoin_good (l : List GoString) (hl : ∀ t ∈ l, t ≠ [] ∧ Trimmed t)
    (hne : l ≠ []) : spaceJoin l ≠ [] ∧ Trimmed (spaceJoin l) := by
  induction l using List.reverseRecOn with
  | nil => exact absurd rfl hne
  | append_singleton l t ih =>
    have ht := hl t (by simp)
    by_cases h0 : l = []
    · subst h0
      simpa [spaceJoin_singleton] using ht
    · have ih1 := ih (fun u hu => hl u (by simp [hu])) h0
      rw [spaceJoin_concat l t h0]
      exact ⟨by simp [ht.1], Trimmed_append_space _ _ ih1.2 ht.2 ih1.1 ht.1⟩

theorem finalTexts_nil : finalTexts [] = [] := rfl

theorem finalTexts_concat (evs : List Transcript) (e : Transcript) :
    finalTexts (evs ++ [e]) =
      if e.Final = true then finalTexts evs ++ [TrimSpace e.Text] else finalTexts evs := by
  unfold finalTexts
  by_cases h : e.Final = true <;> simp [List.filter_append, h]

theorem finalTexts_good (evs : List Transcript)
    (hnb : ∀ e ∈ evs, e.Final = true → NonBlank e.Text) :
    ∀ t ∈ finalTexts evs, t ≠ [] ∧ Trimmed t := by
  intro t ht
  unfold finalTexts at ht
  simp only [List.mem_map, List.mem_filter] at ht
  obtain ⟨e, ⟨he, hf⟩, rfl⟩ := ht
  exact ⟨(TrimSpace_ne_nil_iff _).mpr (hnb e he hf), TrimSpace_trimmed _⟩

/-! ## Lemmas on the coordinator -/

theorem foldl_handleTranscript_fresh (gp : Nat) (out : Chan GoString)
    (evs : List Transcript) (hnb : ∀ e ∈ evs, e.Final = true → NonBlank e.Text) :
    evs.foldl handleTranscript (NewConversationManager gp out) =
      if finalTexts evs = [] then NewConversationManager gp out
      else buffering gp out (spaceJoin (finalTexts evs)) := by
  induction evs using List.reverseRecOn with
  | nil => simp [finalTexts_nil]
  | append_singleton evs e ih =>
    have ih1 := ih (fun u hu => hnb u (by simp [hu]))
    have he := hnb e (by simp)
    rw [List.foldl_append, ih1, finalTexts_concat]
    simp only [List.foldl_cons, List.foldl_nil]
    by_cases hf : e.Final = true
    · have hne : e.Text ≠ [] := by
        obtain ⟨c, hc, _⟩ := he hf
        exact List.ne_nil_of_mem hc
      simp only [hf, if_true]
      by_cases h0 : finalTexts evs = []
      · simp [h0, handleTranscript, NewConversationManager, buffering, hf, hne, Len,
          spaceJoin_singleton]
      · have hg := spaceJoin_good _ (finalTexts_good evs (fun u hu => hnb u (by simp [hu]))) h0
        have hlen : 0 < Len (spaceJoin (finalTexts evs)) := (Len_pos_iff _).mpr hg.1
        simp [h0, handleTranscript, buffering, hf, hne, hlen, spaceJoin_concat]
    · have hf' : e.Final = false := by simpa using hf
      by_cases h0 : finalTexts evs = []
      · simp [h0, handleTranscript, NewConversationManager, hf']
      · simp [h0, handleTranscript, buffering, hf']

theorem handleTranscript_output (cm : ConversationManager) (tr : Transcript) :
    (handleTranscript cm tr).output = cm.output := by
  unfold handleTranscript
  split_ifs <;> rfl

theorem foldl_handleTranscript_output (evs : List Transcript) (cm : ConversationManager) :
    (evs.foldl handleTranscript cm).output = cm.output := by
  induction evs generalizing cm with
  | nil => rfl
  | cons e evs ih => rw [List.foldl_cons, ih, handleTranscript_output]

theorem Run_closed_eq_foldl (evs : List Transcript) (cm : ConversationManager) :
    Run cm true evs = some (evs.foldl handleTranscript cm) := by
  induction evs generalizing cm with
  | nil => rfl
  | cons e evs ih => rw [Run, ih, List.foldl_cons]

theorem flushIfNeeded_nonblank (cm : ConversationManager) (hnb : NonBlank cm.pendingText)
    (hopen : cm.output.closed = false) :
    flushIfNeeded cm =
      some { cm with
        pendingText := [], state := StateIdle, timerActive := false,
        output :=
          if cm.output.buf.length < cm.output.cap then
            { cm.output with buf := cm.output.buf ++ [TrimSpace cm.pendingText] }
          else cm.output } := by
  have h := (TrimSpace_ne_nil_iff _).mpr hnb
  unfold flushIfNeeded
  simp only []
  rw [if_neg h]
  unfold Chan.trySend
  rw [hopen]
  by_cases hroom : cm.output.buf.length < cm.output.cap
  · simp [hroom]
  · simp [hroom]

theorem HeadOk_handleTranscript (cm : ConversationManager) (tr : Transcript)
    (h : HeadOk cm.pendingText) : HeadOk (handleTranscript cm tr).pendingText := by
  unfold handleTranscript
  split_ifs with h1 h2 h3 h4
  · exact h
  · exact h
  · exact h
  · have hne : cm.pendingText ≠ [] := (Len_pos_iff _).mp h4
    intro c hc
    simp only [List.append_assoc] at hc
    rw [List.head?_append_of_ne_nil _ hne] at hc
    exact h c hc
  · have he : cm.pendingText = [] := by
      by_contra hne
      exact h4 ((Len_pos_iff _).mpr hne)
    simp only [he, List.nil_append]
    exact (TrimSpace_trimmed _).1
  
theorem HeadOk_nonblank (s : GoString) (h : HeadOk s) (hne : s ≠ []) : NonBlank s := by
  cases s with
  | nil => exact absurd rfl hne
  | cons c l => exact ⟨c, by simp, h c rfl⟩

theorem flushIfNeeded_pending (cm s : ConversationManager) (h : HeadOk cm.pendingText)
    (hs : flushIfNeeded cm = some s) : s.pendingText = [] ∧ s.state = StateIdle := by
  by_cases hne : cm.pendingText = []
  · unfold flushIfNeeded at hs
    simp only [hne, TrimSpace_nil, if_true, Option.some.injEq] at hs
    subst hs
    exact ⟨rfl, rfl⟩
  · have hnb := HeadOk_nonblank _ h hne
    have ht := (TrimSpace_ne_nil_iff _).mpr hnb
    unfold flushIfNeeded at hs
    simp only [ht, if_false] at hs
    cases ho : cm.output.trySend (TrimSpace cm.pendingText) with
    | none => rw [ho] at hs; exact Option.noConfusion hs
    | some o =>
      rw [ho] at hs
      simp only [Option.some.injEq] at hs
      subst hs
      exact ⟨rfl, rfl⟩

theorem Inv_step (cm s : ConversationManager) (e : Event) (h : Inv cm)
    (hs : step cm e = some s) : Inv s := by
  cases e with
  | transcript tr =>
    simp only [step, Option.some.injEq] at hs
    subst hs
    refine ⟨HeadOk_handleTranscript cm tr h.1, ?_⟩
    unfold handleTranscript
    split_ifs <;> first | exact h.2 | (intro _; rfl)
  | assistantSpeaking b =>
    simp only [step, Option.some.injEq] at hs
    subst hs
    cases b <;> exact h
  | timerFires =>
    have hp := flushIfNeeded_pending cm s h.1 hs
    refine ⟨?_, ?_⟩
    · rw [hp.1]; intro c hc; simp at hc
    · intro hne; exact absurd hp.1 hne

theorem Inv_exec (evs : List Event) (cm s : ConversationManager) (h : Inv cm)
    (hs : exec cm evs = some s) : Inv s := by
  induction evs generalizing cm with
  | nil =>
    simp only [exec, Option.some.injEq] at hs
    subst hs; exact h
  | cons e evs ih =>
    simp only [exec] at hs
    cases h1 : step cm e with
    | none => rw [h1] at hs; exact Option.noConfusion hs
    | some cm1 =>
      rw [h1] at hs
      exact ih cm1 (Inv_step cm cm1 e h h1) hs

theorem userSpeaking_exec (evs : List Event) (cm s : ConversationManager) (h : Inv cm)
    (hu : cm.pendingText ≠ [] → cm.state = StateUserSpeaking)
    (hno : ∀ b, Event.assistantSpeaking b ∉ evs)
    (hs : exec cm evs = some s) : s.pendingText ≠ [] → s.state = StateUserSpeaking := by
  induction evs generalizing cm with
  | nil =>
    simp only [exec, Option.some.injEq] at hs
    subst hs; exact hu
  | cons e evs ih =>
    simp only [exec] at hs
    cases h1 : step cm e with
    | none => rw [h1] at hs; exact Option.noConfusion hs
    | some cm1 =>
      rw [h1] at hs
      refine ih cm1 (Inv_step cm cm1 e h h1) ?_ (fun b hb => hno b (by simp [hb])) hs
      cases e with
      | transcript tr =>
        simp only [step, Option.some.injEq] at h1
        subst h1
        unfold handleTranscript
        split_ifs <;> first | exact hu | (intro _; rfl)
      | assistantSpeaking b => exact absurd (by simp) (hno b)
      | timerFires =>
        have hp := flushIfNeeded_pending cm cm1 h.1 h1
        intro hne; exact absurd hp.1 hne

theorem exec_append (a b : List Event) (cm : ConversationManager) :
    exec cm (a ++ b) = (exec cm a).bind (fun s => exec s b) := by
  induction a generalizing cm with
  | nil => rfl
  | cons e a ih =>
    simp only [List.cons_append, exec]
    cases step cm e with
    | none => rfl
    | some cm1 => simp only [Option.some_bind]; exact ih cm1

theorem handleTranscript_same_or_userSpeaking (cm : ConversationManager) (tr : Transcript) :
    handleTranscript cm tr = cm ∨ (handleTranscript cm tr).state = StateUserSpeaking := by
  unfold handleTranscript
  split_ifs
  · exact Or.inl rfl
  · exact Or.inl rfl
  · exact Or.inl rfl
  · exact Or.inr rfl
  · exact Or.inr rfl

theorem userSpeaking_or_spokenOver (evs : List Event) (cm s : ConversationManager)
    (h : Inv cm) (hu : cm.pendingText ≠ [] → cm.state = StateUserSpeaking)
    (hs : exec cm evs = some s) :
    s.pendingText ≠ [] →
      s.state = StateUserSpeaking ∨
      ∃ pre b post s1,
        evs = pre ++ Event.assistantSpeaking b :: post ∧
        exec cm pre = some s1 ∧
        s1.pendingText ≠ [] ∧
        (∀ b1, Event.assistantSpeaking b1 ∉ post) ∧
        s = SetAssistantSpeaking s1 b := by
  induction evs using List.reverseRecOn generalizing s with
  | nil =>
    simp only [exec, Option.some.injEq] at hs
    subst hs
    intro hne; exact Or.inl (hu hne)
  | append_singleton es e ih =>
    rw [exec_append] at hs
    cases h0 : exec cm es with
    | none => rw [h0] at hs; exact Option.noConfusion hs
    | some s0 =>
      rw [h0] at hs
      simp only [Option.some_bind, exec] at hs
      cases h1 : step s0 e with
      | none => rw [h1] at hs; exact Option.noConfusion hs
      | some s2 =>
        rw [h1] at hs
        simp only [Option.some_bind, Option.some.injEq] at hs
        subst hs
        intro hne
        cases e with
        | transcript tr =>
          simp only [step, Option.some.injEq] at h1
          subst h1
          rcases handleTranscript_same_or_userSpeaking s0 tr with hsame | hst
          · rw [hsame] at hne ⊢
            rcases ih s0 h0 hne with hl | ⟨pre, b, post, s1, he, hp, hn, hno, hr⟩
            · exact Or.inl hl
            · refine Or.inr ⟨pre, b, post ++ [Event.transcript tr], s1, ?_, hp, hn, ?_, hr⟩
              · rw [he]; simp
              · intro b1 hb
                rcases List.mem_append.mp hb with hb | hb
                · exact hno b1 hb
                · simp at hb
          · exact Or.inl hst
        | assistantSpeaking b =>
          simp only [step, Option.some.injEq] at h1
          subst h1
          refine Or.inr ⟨es, b, [], s0, rfl, h0, ?_, fun b1 hb => by simp at hb, rfl⟩
          cases b <;> exact hne
        | timerFires =>
          have hp := flushIfNeeded_pending s0 s2 (Inv_exec es cm s0 h h0).1 h1
          exact absurd hp.1 hne

theorem trySend_closed {α : Type} (c o : Chan α) (v : α) (h : c.trySend v = some o) :
    o.closed = c.closed := by
  unfold Chan.trySend at h
  split_ifs at h with h1 h2
  · simp only [Option.some.injEq] at h
    subst h; rfl
  · simp only [Option.some.injEq] at h
    subst h; rfl

theorem flushIfNeeded_closed (cm s : ConversationManager) (h : flushIfNeeded cm = some s) :
    s.output.closed = cm.output.closed := by
  unfold flushIfNeeded at h
  simp only [] at h
  split_ifs at h with h1
  · simp only [Option.some.injEq] at h
    subst h; rfl
  · cases ho : cm.output.trySend (TrimSpace cm.pendingText) with
    | none => rw [ho] at h; exact Option.noConfusion h
    | some o =>
      rw [ho] at h
      simp only [Option.some.injEq] at h
      subst h
      exact trySend_closed _ _ _ ho

theorem step_closed (cm s : ConversationManager) (e : Event) (h : step cm e = some s) :
    s.output.closed = cm.output.closed := by
  cases e with
  | transcript tr =>
    simp only [step, Option.some.injEq] at h
    subst h
    rw [handleTranscript_output]
  | assistantSpeaking b =>
    simp only [step, Option.some.injEq] at h
    subst h
    cases b <;> rfl
  | timerFires => exact flushIfNeeded_closed cm s h

theorem exec_closed (evs : List Event) (cm : ConversationManager) :
    (exec cm evs).map (fun s => s.output.closed) =
      (exec cm evs).map (fun _ => cm.output.closed) := by
  induction evs generalizing cm with
  | nil => rfl
  | cons e evs ih =>
    simp only [exec]
    cases h1 : step cm e with
    | none => rfl
    | some cm1 =>
      simp only [Option.some_bind]
      rw [ih cm1, step_closed cm cm1 e h1]

/-! ## The coordinator: claims -/

/-- C1: from a fresh manager, a burst of transcripts holding at least one final
event, whose final texts all have a non-white-space character and with partial
events anywhere, handed in order to `handleTranscript` and followed by one
firing of the timer (`flushIfNeeded`) on an open output queue with room,
queues exactly one utterance, the single-space join of the trimmed final
texts in arrival order, and leaves the buffer empty and the state Idle. -/
theorem burst_commits_one_utterance (gp : Nat) (out : Chan GoString)
    (evs : List Transcript) (hopen : out.closed = false)
    (hroom : out.buf.length < out.cap) (hfinal : ∃ e ∈ evs, e.Final = true)
    (hnb : ∀ e ∈ evs, e.Final = true → NonBlank e.Text) :
    flushIfNeeded (evs.foldl handleTranscript (NewConversationManager gp out)) =
      some
        { state := StateIdle, gracePeriod := gp, pendingText := [],
          commitTimer := some (AfterFunc gp),
          output :=
            { buf := out.buf ++ [spaceJoin (finalTexts evs)], cap := out.cap,
              closed := out.closed },
          timerActive := false } := by
  have hne : finalTexts evs ≠ [] := by
    obtain ⟨e, he, hf⟩ := hfinal
    intro h0
    have : TrimSpace e.Text ∈ finalTexts evs := by
      unfold finalTexts
      simp only [List.mem_map, List.mem_filter]
      exact ⟨e, ⟨he, hf⟩, rfl⟩
    rw [h0] at this
    simp at this
  have hg := spaceJoin_good _ (finalTexts_good evs hnb) hne
  rw [foldl_handleTranscript_fresh gp out evs hnb, if_neg hne]
  have hnb2 : NonBlank (buffering gp out (spaceJoin (finalTexts evs))).pendingText :=
    (TrimSpace_ne_nil_iff _).mp (by
      show TrimSpace (spaceJoin (finalTexts evs)) ≠ []
      rw [TrimSpace_of_trimmed _ hg.2]; exact hg.1)
  rw [flushIfNeeded_nonblank _ hnb2 hopen]
  simp only [buffering, hroom, if_true, TrimSpace_of_trimmed _ hg.2]

/-- C1 at the events `("hello", partial)`, `("hello world", final)` on an empty
open queue of capacity 8: one utterance `hello world` is queued. -/
theorem burst_commits_one_utterance_witness :
    flushIfNeeded
        ([(⟨['h', 'e', 'l', 'l', 'o'], false⟩ : Transcript),
          ⟨['h', 'e', 'l', 'l', 'o', ' ', 'w', 'o', 'r', 'l', 'd'], true⟩].foldl
          handleTranscript (NewConversationManager 1500 ⟨[], 8, false⟩)) =
      some
        { state := StateIdle, gracePeriod := 1500, pendingText := [],
          commitTimer := some (AfterFunc 1500),
          output :=
            { buf := [['h', 'e', 'l', 'l', 'o', ' ', 'w', 'o', 'r', 'l', 'd']], cap := 8,
              closed := false },
          timerActive := false } :=
  burst_commits_one_utterance 1500 ⟨[], 8, false⟩
    [⟨['h', 'e', 'l', 'l', 'o'], false⟩,
      ⟨['h', 'e', 'l', 'l', 'o', ' ', 'w', 'o', 'r', 'l', 'd'], true⟩]
    rfl (by decide) (by decide) (by decide)

/-- C2: while the state is AssistantSpeaking, `handleTranscript` returns the
manager as it was for every transcript, partial or final: state, buffer, timer
and output queue are unchanged. -/
theorem handleTranscript_assistantSpeaking (cm : ConversationManager) (tr : Transcript)
    (h : cm.state = StateAssistantSpeaking) : handleTranscript cm tr = cm := by
  unfold handleTranscript
  rw [if_pos h]

/-- C2 at a manager in AssistantSpeaking with text buffered and the timer
armed, for a final transcript. -/
theorem handleTranscript_assistantSpeaking_witness :
    handleTranscript
        { state := StateAssistantSpeaking, gracePeriod := 1500, pendingText := ['h', 'i'],
          commitTimer := some (AfterFunc 1500), output := ⟨[], 8, false⟩,
          timerActive := true }
        ⟨['y', 'o'], true⟩ =
      { state := StateAssistantSpeaking, gracePeriod := 1500, pendingText := ['h', 'i'],
        commitTimer := some (AfterFunc 1500), output := ⟨[], 8, false⟩,
        timerActive := true } :=
  handleTranscript_assistantSpeaking _ _ rfl

/-- C4: `SetAssistantSpeaking` changes the turn state only: `false` yields
Idle and `true` yields AssistantSpeaking from every manager, and the buffer,
the timer (pointer and active flag), the output queue and the grace period are
left as they were. -/
theorem SetAssistantSpeaking_frame (cm : ConversationManager) :
    SetAssistantSpeaking cm false = { cm with state := StateIdle } ∧
    SetAssistantSpeaking cm true = { cm with state := StateAssistantSpeaking } ∧
    ∀ b : Bool,
      (SetAssistantSpeaking cm b).pendingText = cm.pendingText ∧
      (SetAssistantSpeaking cm b).commitTimer = cm.commitTimer ∧
      (SetAssistantSpeaking cm b).timerActive = cm.timerActive ∧
      (SetAssistantSpeaking cm b).output = cm.output ∧
      (SetAssistantSpeaking cm b).gracePeriod = cm.gracePeriod := by
  refine ⟨rfl, rfl, ?_⟩
  intro b
  cases b <;> exact ⟨rfl, rfl, rfl, rfl, rfl⟩

/-- C5: when the buffer holds non-blank text and the timer fires while the open
output queue is at capacity, `flushIfNeeded` returns (it does not block or
panic), the output queue is as it was, the buffer is cleared, the timer is
marked inactive and the state is Idle. -/
theorem flushIfNeeded_full_queue_drops (cm : ConversationManager)
    (hnb : NonBlank cm.pendingText) (hopen : cm.output.closed = false)
    (hfull : cm.output.cap ≤ cm.output.buf.length) :
    flushIfNeeded cm =
      some { cm with pendingText := [], state := StateIdle, timerActive := false } := by
  rw [flushIfNeeded_nonblank cm hnb hopen, if_neg (by omega)]

/-- C5 at a manager buffering `hi` whose queue of capacity 1 already holds one
utterance. -/
theorem flushIfNeeded_full_queue_drops_witness :
    flushIfNeeded
        { state := StateUserSpeaking, gracePeriod := 1500, pendingText := ['h', 'i'],
          commitTimer := some (AfterFunc 1500), output := ⟨[['y', 'o']], 1, false⟩,
          timerActive := true } =
      some
        { state := StateIdle, gracePeriod := 1500, pendingText := [],
          commitTimer := some (AfterFunc 1500), output := ⟨[['y', 'o']], 1, false⟩,
          timerActive := false } :=
  flushIfNeeded_full_queue_drops _ (by decide) rfl (by decide)

/-- C6, the claim fails for white space: a final transcript whose text is one
space, handed to a fresh (Idle) manager, moves the state to UserSpeaking and
arms the timer; handed to a manager in UserSpeaking that buffers `hi`, it
appends a space to the buffer. -/
theorem blank_final_not_ignored :
    (NewConversationManager 1500 ⟨[], 8, false⟩).state = StateIdle ∧
    (∀ c ∈ [' '], isSpace c = true) ∧
    handleTranscript (NewConversationManager 1500 ⟨[], 8, false⟩) ⟨[' '], true⟩ =
      { state := StateUserSpeaking, gracePeriod := 1500, pendingText := [],
        commitTimer := some (AfterFunc 1500), output := ⟨[], 8, false⟩,
        timerActive := true } ∧
    handleTranscript (NewConversationManager 1500 ⟨[], 8, false⟩) ⟨[' '], true⟩ ≠
      NewConversationManager 1500 ⟨[], 8, false⟩ ∧
    (handleTranscript (buffering 1500 ⟨[], 8, false⟩ ['h', 'i']) ⟨[' '], true⟩).pendingText =
      ['h', 'i', ' '] := by
  decide

/-- C6 as amended: for a manager in state Idle or UserSpeaking and a final
transcript whose text is blank, `handleTranscript` is a no-op (state, buffer,
timer and output queue unchanged) when the text is empty. When the text is
white space of positive length the result is the manager with exactly these
changes: the state is UserSpeaking, `timerActive` is set, `commitTimer` is the
timer that `time.AfterFunc` returns for the grace period, and the buffer is
left empty when it was empty and gains exactly one space at its end when it
was not; the grace period and the output queue are as they were. In both
cases the output queue and the trimmed content of the buffer are unchanged. -/
theorem blank_final_effect (cm : ConversationManager) (tr : Transcript)
    (hstate : cm.state = StateIdle ∨ cm.state = StateUserSpeaking)
    (hfinal : tr.Final = true) (hblank : ∀ c ∈ tr.Text, isSpace c = true) :
    (tr.Text = [] → handleTranscript cm tr = cm) ∧
    (tr.Text ≠ [] →
      handleTranscript cm tr =
        { state := StateUserSpeaking, gracePeriod := cm.gracePeriod,
          pendingText := if cm.pendingText = [] then [] else cm.pendingText ++ [' '],
          commitTimer := some (AfterFunc cm.gracePeriod), output := cm.output,
          timerActive := true }) ∧
    (handleTranscript cm tr).output = cm.output ∧
    TrimSpace (handleTranscript cm tr).pendingText = TrimSpace cm.pendingText := by
  have hs : cm.state ≠ StateAssistantSpeaking := by
    rcases hstate with h | h <;> rw [h] <;> decide
  have ht : TrimSpace tr.Text = [] := (TrimSpace_eq_nil_iff _).mpr hblank
  refine ⟨?_, ?_, handleTranscript_output cm tr, ?_⟩
  · intro h0
    unfold handleTranscript
    simp [h0]
  · intro h0
    unfold handleTranscript
    by_cases hp : cm.pendingText = []
    · have hl : ¬ Len cm.pendingText > 0 := fun h => (Len_pos_iff _).mp h hp
      simp [hs, hfinal, h0, ht, hp, Len]
    · have hl : Len cm.pendingText > 0 := (Len_pos_iff _).mpr hp
      simp [hs, hfinal, h0, hl, ht, hp]
  · unfold handleTranscript
    by_cases h0 : tr.Text = []
    · simp [h0]
    · by_cases hl : Len cm.pendingText > 0
      · simp only [hs, hfinal, h0, hl, ht, if_true, if_false, List.append_nil]
        simp only [Bool.true_eq_false, if_false]
        exact TrimSpace_append_space _ ' ' (by decide)
      · simp [hs, hfinal, h0, hl, ht]

/-- C6 as amended, at a manager in UserSpeaking that buffers `hi` and the
final transcript of one tab and one space: the buffer becomes `hi` followed by
one space, and nothing else of the manager changes. -/
theorem blank_final_effect_witness :
    handleTranscript (buffering 1500 ⟨[], 8, false⟩ ['h', 'i']) ⟨['\t', ' '], true⟩ =
      { state := StateUserSpeaking, gracePeriod := 1500, pendingText := ['h', 'i', ' '],
        commitTimer := some (AfterFunc 1500), output := ⟨[], 8, false⟩,
        timerActive := true } :=
  (blank_final_effect (buffering 1500 ⟨[], 8, false⟩ ['h', 'i']) ⟨['\t', ' '], true⟩
    (Or.inr rfl) rfl (by decide)).2.1 (by decide)

/-- C7, what the code does: with no cancellation and an input queue that is
closed behind its events, `Run` hands every event to `handleTranscript` in
arrival order and returns, and when it returns the output queue is as it was
handed in, closed flag included: `Run` does not close it. No interleaving of
the three operations of the manager changes the closed flag either. At the
input queue holding the final transcript `hi`, with an open output queue of
capacity 8, the output queue is still open when `Run` has returned. -/
theorem Run_returns_with_output_open :
    (∀ (cm : ConversationManager) (evs : List Transcript),
      Run cm true evs = some (evs.foldl handleTranscript cm) ∧
      (evs.foldl handleTranscript cm).output = cm.output) ∧
    (∀ (cm : ConversationManager) (evs : List Event),
      (exec cm evs).map (fun s => s.output.closed) =
        (exec cm evs).map (fun _ => cm.output.closed)) ∧
    Run (NewConversationManager 1500 ⟨[], 8, false⟩) true [⟨['h', 'i'], true⟩] =
      some
        { state := StateUserSpeaking, gracePeriod := 1500, pendingText := ['h', 'i'],
          commitTimer := some (AfterFunc 1500),
          output := { buf := [], cap := 8, closed := false },
          timerActive := true } :=
  ⟨fun cm evs => ⟨Run_closed_eq_foldl evs cm, foldl_handleTranscript_output evs cm⟩,
    fun cm evs => exec_closed evs cm, by decide⟩

/-- C9: from a fresh manager with an open output queue that has room, a final
transcript with a non-white-space character, then `SetAssistantSpeaking(true)`
(the state is then AssistantSpeaking with the text still buffered and the timer
still active), then the timer firing: the trimmed text is queued and the state
is Idle. The same manager results when `SetAssistantSpeaking(false)` is called
before the timer fires, with or without the call with `true` before it. -/
theorem armed_timer_flushes_during_assistant_speech (gp : Nat) (out : Chan GoString)
    (t : GoString) (hnb : NonBlank t) (hopen : out.closed = false)
    (hroom : out.buf.length < out.cap) :
    SetAssistantSpeaking (handleTranscript (NewConversationManager gp out) ⟨t, true⟩) true =
      { state := StateAssistantSpeaking, gracePeriod := gp, pendingText := TrimSpace t,
        commitTimer := some (AfterFunc gp), output := out, timerActive := true } ∧
    flushIfNeeded
        (SetAssistantSpeaking
          (handleTranscript (NewConversationManager gp out) ⟨t, true⟩) true) =
      some
        { state := StateIdle, gracePeriod := gp, pendingText := [],
          commitTimer := some (AfterFunc gp),
          output := { buf := out.buf ++ [TrimSpace t], cap := out.cap, closed := out.closed },
          timerActive := false } ∧
    flushIfNeeded
        (SetAssistantSpeaking
          (SetAssistantSpeaking
            (handleTranscript (NewConversationManager gp out) ⟨t, true⟩) true) false) =
      some
        { state := StateIdle, gracePeriod := gp, pendingText := [],
          commitTimer := some (AfterFunc gp),
          output := { buf := out.buf ++ [TrimSpace t], cap := out.cap, closed := out.closed },
          timerActive := false } ∧
    flushIfNeeded
        (SetAssistantSpeaking
          (handleTranscript (NewConversationManager gp out) ⟨t, true⟩) false) =
      some
        { state := StateIdle, gracePeriod := gp, pendingText := [],
          commitTimer := some (AfterFunc gp),
          output := { buf := out.buf ++ [TrimSpace t], cap := out.cap, closed := out.closed },
          timerActive := false } := by
  have hne : t ≠ [] := by
    obtain ⟨c, hc, _⟩ := hnb
    exact List.ne_nil_of_mem hc
  have hh : handleTranscript (NewConversationManager gp out) ⟨t, true⟩ =
      buffering gp out (TrimSpace t) := by
    simp [handleTranscript, NewConversationManager, buffering, hne, Len]
  have ht : NonBlank (TrimSpace t) :=
    (TrimSpace_ne_nil_iff _).mp (by
      rw [TrimSpace_of_trimmed _ (TrimSpace_trimmed t)]
      exact (TrimSpace_ne_nil_iff t).mpr hnb)
  have hfl : ∀ st : ConversationState,
      flushIfNeeded { buffering gp out (TrimSpace t) with state := st } =
        some
          { state := StateIdle, gracePeriod := gp, pendingText := [],
            commitTimer := some (AfterFunc gp),
            output :=
              { buf := out.buf ++ [TrimSpace t], cap := out.cap, closed := out.closed },
            timerActive := false } := by
    intro st
    rw [flushIfNeeded_nonblank _ ht hopen]
    simp only [buffering, hroom, if_true, TrimSpace_of_trimmed _ (TrimSpace_trimmed t)]
  rw [hh]
  exact ⟨rfl, hfl StateAssistantSpeaking, hfl StateIdle, hfl StateIdle⟩

/-- C9 at the text ` hi ` on an empty open queue of capacity 8. -/
theorem armed_timer_flushes_during_assistant_speech_witness :
    flushIfNeeded
        (SetAssistantSpeaking
          (handleTranscript (NewConversationManager 1500 ⟨[], 8, false⟩)
            ⟨[' ', 'h', 'i', ' '], true⟩) true) =
      some
        { state := StateIdle, gracePeriod := 1500, pendingText := [],
          commitTimer := some (AfterFunc 1500),
          output := { buf := [['h', 'i']], cap := 8, closed := false },
          timerActive := false } :=
  (armed_timer_flushes_during_assistant_speech 1500 ⟨[], 8, false⟩ [' ', 'h', 'i', ' ']
    (by decide) rfl (by decide)).2.1

/-- C3, the claim fails: after a final transcript `hi` and then
`SetAssistantSpeaking(true)` the buffer holds `hi` while the state is
AssistantSpeaking; after `SetAssistantSpeaking(false)` on top of that the
buffer holds `hi` while the state is Idle. -/
theorem buffer_outlives_user_turn :
    exec (NewConversationManager 1500 ⟨[], 8, false⟩)
        [Event.transcript ⟨['h', 'i'], true⟩, Event.assistantSpeaking true] =
      some
        { state := StateAssistantSpeaking, gracePeriod := 1500, pendingText := ['h', 'i'],
          commitTimer := some (AfterFunc 1500), output := ⟨[], 8, false⟩,
          timerActive := true } ∧
    exec (NewConversationManager 1500 ⟨[], 8, false⟩)
        [Event.transcript ⟨['h', 'i'], true⟩, Event.assistantSpeaking true,
          Event.assistantSpeaking false] =
      some
        { state := StateIdle, gracePeriod := 1500, pendingText := ['h', 'i'],
          commitTimer := some (AfterFunc 1500), output := ⟨[], 8, false⟩,
          timerActive := true } := by
  decide

/-- C3 as amended: in every state reached from a fresh manager by a finite
interleaving of `handleTranscript` calls, `SetAssistantSpeaking` calls and timer
firings, the buffer is non-empty only while the timer is marked active, and
only while the state is UserSpeaking, with one exception: the state that a
`SetAssistantSpeaking` call of the interleaving returned when it was made on a
non-empty buffer, for as long as the events after that call leave the manager
as it is (no further `SetAssistantSpeaking` call among them). -/
theorem pending_only_while_timer_active (gp : Nat) (out : Chan GoString)
    (evs : List Event) (s : ConversationManager)
    (h : exec (NewConversationManager gp out) evs = some s) :
    (s.pendingText ≠ [] → s.timerActive = true) ∧
    (s.pendingText ≠ [] →
      s.state = StateUserSpeaking ∨
      ∃ pre b post s1,
        evs = pre ++ Event.assistantSpeaking b :: post ∧
        exec (NewConversationManager gp out) pre = some s1 ∧
        s1.pendingText ≠ [] ∧
        (∀ b1, Event.assistantSpeaking b1 ∉ post) ∧
        s = SetAssistantSpeaking s1 b) := by
  have h0 : Inv (NewConversationManager gp out) :=
    ⟨fun c hc => by simp [NewConversationManager] at hc,
      fun hne => absurd rfl hne⟩
  exact ⟨(Inv_exec evs _ s h0 h).2,
    userSpeaking_or_spokenOver evs _ s h0 (fun hne => absurd rfl hne) h⟩

/-- C3 as amended, at the trace `SetAssistantSpeaking(true)`,
`SetAssistantSpeaking(false)`, final `hi`, whose calls of
`SetAssistantSpeaking` are made on an empty buffer: the state reached buffers
`hi`, its timer is marked active, and the theorem gives UserSpeaking or the
exception. -/
theorem pending_only_while_timer_active_witness :
    ∃ s, exec (NewConversationManager 1500 ⟨[], 8, false⟩)
        [Event.assistantSpeaking true, Event.assistantSpeaking false,
          Event.transcript ⟨['h', 'i'], true⟩] = some s ∧
      s.pendingText = ['h', 'i'] ∧
      s.timerActive = true ∧
      (s.state = StateUserSpeaking ∨
        ∃ pre b post s1,
          [Event.assistantSpeaking true, Event.assistantSpeaking false,
            Event.transcript ⟨['h', 'i'], true⟩] =
              pre ++ Event.assistantSpeaking b :: post ∧
          exec (NewConversationManager 1500 ⟨[], 8, false⟩) pre = some s1 ∧
          s1.pendingText ≠ [] ∧
          (∀ b1, Event.assistantSpeaking b1 ∉ post) ∧
          s = SetAssistantSpeaking s1 b) :=
  ⟨{ state := StateUserSpeaking, gracePeriod := 1500, pendingText := ['h', 'i'],
      commitTimer := some (AfterFunc 1500), output := ⟨[], 8, false⟩,
      timerActive := true },
    by decide, rfl,
    (pending_only_while_timer_active 1500 ⟨[], 8, false⟩
      [Event.assistantSpeaking true, Event.assistantSpeaking false,
        Event.transcript ⟨['h', 'i'], true⟩] _ (by decide)).1 (by decide),
    (pending_only_while_timer_active 1500 ⟨[], 8, false⟩
      [Event.assistantSpeaking true, Event.assistantSpeaking false,
        Event.transcript ⟨['h', 'i'], true⟩] _ (by decide)).2 (by decide)⟩

/-! ## Lemmas on the frame codec -/

theorem toUint16_lt (s : Int) : toUint16 s < 65536 := by
  unfold toUint16; omega

theorem toInt16_toUint16 (s : Int) (h1 : -32768 ≤ s) (h2 : s ≤ 32767) :
    toInt16 (toUint16 s) = s := by
  unfold toInt16 toUint16
  split_ifs <;> omega

theorem foldlM_set_range {α : Type} (f : Nat → Option α) (g : Nat → α)
    (n k : Nat) (init : List α) (hlen : init.length = n) (hk : k ≤ n)
    (hf : ∀ i, i < n → f i = some (g i)) :
    (List.range k).foldlM (fun out i => (f i).map (fun v => out.set i v)) init =
      some ((List.range k).map g ++ init.drop k) := by
  induction k with
  | zero => simp
  | succ k ih =>
    rw [List.range_succ, List.foldlM_append, ih (by omega)]
    simp only [Option.some_bind, List.foldlM_cons, List.foldlM_nil, hf k (by omega),
      Option.map_some', Option.bind_eq_bind, Option.pure_def]
    rw [List.set_append_right _ _ (by simp)]
    simp only [List.length_map, List.length_range, Nat.sub_self, List.map_append,
      List.map_cons, List.map_nil, List.append_assoc, List.singleton_append]
    congr 2
    rw [List.drop_eq_getElem_cons (by omega : k < init.length)]
    rfl


theorem Uint16_even (data : List Nat) (i : Nat) (h : 2 * i + 1 < data.length) :
    (Uint16 data (2 * i)).map toInt16 = some (sampleAt data i) := by
  unfold Uint16 sampleAt
  rw [if_pos h]
  simp only [Option.map_some', Option.some.injEq]
  congr 1
  have hb : data.getD (2 * i) 0 % 256 < 2 ^ 8 := by
    have := Nat.mod_lt (data.getD (2 * i) 0) (by decide : 256 > 0); omega
  rw [Nat.shiftLeft_eq, Nat.lor_comm, Nat.mul_comm _ (2 ^ 8),
    ← Nat.mul_add_lt_is_or hb]
  omega

theorem bytesToInt16Slice_even (data : List Nat) (h : data.length % 2 = 0) :
    bytesToInt16Slice data =
      some ((List.range (data.length / 2)).map (sampleAt data)) := by
  unfold bytesToInt16Slice
  simp only [h, ne_eq, not_true_eq_false, if_false]
  have := foldlM_set_range (fun i => (Uint16 data (2 * i)).map toInt16) (sampleAt data)
    (data.length / 2) (data.length / 2) (List.replicate (data.length / 2) 0) (by simp)
    (le_refl _) (fun i hi => Uint16_even data i (by omega))
  simp only [Option.map_map] at this
  simpa using this


theorem set_two {α : Type} (b : List α) (j : Nat) (x y : α) (h : j + 1 < b.length) :
    (b.set j x).set (j + 1) y = b.take j ++ x :: y :: b.drop (j + 2) := by
  induction j generalizing b with
  | zero =>
    match b, h with
    | a :: c :: rest, _ => simp
  | succ j ih =>
    match b, h with
    | a :: rest, h =>
      have := ih rest (by simpa using h)
      simp [this]

theorem PutUint16_eq (b : List Nat) (k : Nat) (s : Int) (h : 2 * k + 1 < b.length) :
    PutUint16 b (2 * k) (toUint16 s) =
      some (b.take (2 * k) ++ sampleBytes s ++ b.drop (2 * k + 2)) := by
  unfold PutUint16
  rw [if_pos h, set_two b (2 * k) _ _ h]
  have := toUint16_lt s
  simp only [sampleBytes, Nat.shiftRight_eq_div_pow, Option.some.injEq,
    List.append_assoc, List.cons_append, List.nil_append]
  congr 3
  omega

theorem foldlM_PutUint16 (ss : List Int) (k : Nat) (b : List Nat)
    (h : 2 * (k + ss.length) ≤ b.length) :
    (ss.enumFrom k).foldlM
        (fun b (p : Nat × Int) => PutUint16 b (2 * p.1) (toUint16 p.2)) b =
      some (b.take (2 * k) ++ ss.flatMap sampleBytes ++ b.drop (2 * (k + ss.length))) := by
  induction ss generalizing k b with
  | nil => simp
  | cons s ss ih =>
    simp only [List.length_cons] at h
    rw [List.enumFrom_cons, List.foldlM_cons, PutUint16_eq b k s (by omega)]
    simp only [Option.some_bind, Option.bind_eq_bind]
    rw [ih (k + 1) _ (by simp [sampleBytes]; omega)]
    simp only [Option.some.injEq, List.flatMap_cons, List.length_cons]
    have h1 : List.take (2 * (k + 1))
        (List.take (2 * k) b ++ sampleBytes s ++ List.drop (2 * k + 2) b) =
        List.take (2 * k) b ++ sampleBytes s := by
      rw [List.take_append_of_le_length (by simp [sampleBytes]; omega)]
      rw [List.take_of_length_le (by simp [sampleBytes]; omega)]
    have h2 : List.drop (2 * (k + 1 + ss.length))
        (List.take (2 * k) b ++ sampleBytes s ++ List.drop (2 * k + 2) b) =
        List.drop (2 * (k + (ss.length + 1))) b := by
      rw [List.drop_append_eq_append_drop]
      rw [List.drop_of_length_le (by simp [sampleBytes]; omega)]
      simp only [List.nil_append, List.drop_drop, List.length_append, List.length_take]
      congr 1
      simp [sampleBytes]
      omega
    rw [h1, h2]
    simp [List.append_assoc]

theorem int16SliceToBytes_eq (ss : List Int) :
    int16SliceToBytes ss = some (ss.flatMap sampleBytes) := by
  unfold int16SliceToBytes
  rw [List.enum, foldlM_PutUint16 ss 0 _ (by simp; omega)]
  have : ss.length * 2 - 2 * ss.length = 0 := by omega
  simp [this]

theorem length_flatMap_sampleBytes (ss : List Int) :
    (ss.flatMap sampleBytes).length = 2 * ss.length := by
  induction ss with
  | nil => rfl
  | cons s ss ih => simp [List.flatMap_cons, sampleBytes, ih]; omega

theorem sampleAt_cons_cons (x y : Nat) (rest : List Nat) (i : Nat) :
    sampleAt (x :: y :: rest) (i + 1) = sampleAt rest i := by
  unfold sampleAt
  have e1 : 2 * (i + 1) = (2 * i) + 1 + 1 := by omega
  rw [e1]
  simp [List.getD_cons_succ]

theorem map_sampleAt_flatMap (ss : List Int)
    (hr : ∀ s ∈ ss, -32768 ≤ s ∧ s ≤ 32767) :
    (List.range ss.length).map (sampleAt (ss.flatMap sampleBytes)) = ss := by
  induction ss with
  | nil => rfl
  | cons s ss ih =>
    have hs := hr s (by simp)
    have ih1 := ih (fun u hu => hr u (by simp [hu]))
    rw [List.length_cons, List.range_succ_eq_map, List.map_cons, List.map_map]
    have h0 : sampleAt ((s :: ss).flatMap sampleBytes) 0 = s := by
      have := toUint16_lt s
      have e := toInt16_toUint16 s hs.1 hs.2
      simp only [List.flatMap_cons, sampleBytes, sampleAt]
      simp only [List.cons_append, List.nil_append, Nat.mul_zero, List.getD_cons_zero,
        Nat.zero_add, List.getD_cons_succ]
      rw [show toUint16 s % 256 % 256 + toUint16 s / 256 % 256 * 256 = toUint16 s by omega]
      exact e
    have hsucc : (sampleAt ((s :: ss).flatMap sampleBytes)) ∘ Nat.succ =
        sampleAt (ss.flatMap sampleBytes) := by
      funext i
      simp only [Function.comp, List.flatMap_cons, sampleBytes, List.cons_append,
        List.nil_append]
      exact sampleAt_cons_cons _ _ _ i
    rw [h0, hsucc, ih1]

theorem bytesToInt16Slice_odd (data : List Nat) (h : data.length % 2 = 1) :
    bytesToInt16Slice data = bytesToInt16Slice (data.take (data.length - 1)) := by
  have hl : (data.take (data.length - 1)).length % 2 = 0 := by
    rw [List.length_take]; omega
  have h1 : data.length % 2 ≠ 0 := by omega
  unfold bytesToInt16Slice
  simp only [hl, h1, ne_eq, not_true_eq_false, not_false_eq_true, if_true, if_false]

/-! ## The frame codec: claims -/

/-- C8: `bytesToInt16Slice` returns on every byte buffer (no panic), with
exactly `len(b) / 2` samples, and the dangling byte of an odd-length buffer is
cut off: for an even-length `b` and any byte `x`, decoding `b ++ [x]` gives
what decoding `b` gives. -/
theorem bytesToInt16Slice_total_truncating (b : List Nat) :
    (∃ out, bytesToInt16Slice b = some out ∧ out.length = b.length / 2) ∧
    (b.length % 2 = 0 → ∀ x : Nat, bytesToInt16Slice (b ++ [x]) = bytesToInt16Slice b) := by
  constructor
  · by_cases h : b.length % 2 = 0
    · exact ⟨_, bytesToInt16Slice_even b h, by simp⟩
    · have hl : (b.take (b.length - 1)).length % 2 = 0 := by
        rw [List.length_take]; omega
      refine ⟨_, (bytesToInt16Slice_odd b (by omega)).trans
        (bytesToInt16Slice_even _ hl), ?_⟩
      simp only [List.length_map, List.length_range, List.length_take]
      omega
  · intro h x
    rw [bytesToInt16Slice_odd (b ++ [x]) (by simp; omega)]
    simp

/-- C8 at the four bytes `1, 0, 255, 255` followed by the dangling byte `7`. -/
theorem bytesToInt16Slice_total_truncating_witness :
    bytesToInt16Slice ([1, 0, 255, 255] ++ [7]) = bytesToInt16Slice [1, 0, 255, 255] :=
  (bytesToInt16Slice_total_truncating [1, 0, 255, 255]).2 (by decide) 7

/-- C10: for every sequence of 16-bit signed samples, `int16SliceToBytes`
returns the samples laid out as their values modulo 2^16, low byte first, in
`2 * len(s)` bytes, and `bytesToInt16Slice` of these bytes returns the
samples. -/
theorem codec_round_trip (s : List Int) (hr : ∀ x ∈ s, -32768 ≤ x ∧ x ≤ 32767) :
    ∃ bytes,
      int16SliceToBytes s = some bytes ∧
      bytes = s.flatMap (fun x => [(x % 65536).toNat % 256, (x % 65536).toNat / 256]) ∧
      bytes.length = 2 * s.length ∧
      bytesToInt16Slice bytes = some s := by
  refine ⟨_, int16SliceToBytes_eq s, rfl, length_flatMap_sampleBytes s, ?_⟩
  rw [bytesToInt16Slice_even _ (by rw [length_flatMap_sampleBytes]; omega),
    length_flatMap_sampleBytes]
  have : 2 * s.length / 2 = s.length := by omega
  rw [this, map_sampleAt_flatMap s hr]

/-- C10 at the samples `0, -32768, 32767, -1`, whose bytes are
`0, 0, 0, 128, 255, 127, 255, 255`. -/
theorem codec_round_trip_witness :
    (∃ bytes,
      int16SliceToBytes [0, -32768, 32767, -1] = some bytes ∧
      bytes =
        [0, -32768, 32767, -1].flatMap
          (fun x : Int => [(x % 65536).toNat % 256, (x % 65536).toNat / 256]) ∧
      bytes.length = 2 * [(0 : Int), -32768, 32767, -1].length ∧
      bytesToInt16Slice bytes = some [0, -32768, 32767, -1]) ∧
    int16SliceToBytes [0, -32768, 32767, -1] = some [0, 0, 0, 128, 255, 127, 255, 255] :=
  ⟨codec_round_trip [0, -32768, 32767, -1] (by decide), by decide⟩

end Voice
